import Mathlib

/-!
Verification of the i2cio command-language parser and transaction-batching
state machine (src/i2cio.c), as a shallow embedding.

The embedding models the dry-run semantics of the program: the external
transport call inside transact() is abstracted to recording the dispatched
batch on a trace, and the bus-open in the BUS state (an external resource
acquisition) is skipped, exactly as the -n flag does in the C code.
Everything else - the tokenizer loop, strtoul numeric parsing, the
seven-state machine, the capacity and range checks, and the end-of-input
switch - is translated line by line from the source.
-/

namespace I2cio

/-- MAXMSGS in the source: I2C_RDWR_IOCTL_MAX_MSGS, which is 42 on Linux. -/
def MAXMSGS : Nat := 42

/-- MAXLEN in the source: max message length, 256. -/
def MAXLEN : Nat := 256

/-! ## Character classification (all via codepoints, mirroring ctype.h) -/

/-- C isspace over ASCII: space, tab, newline, vertical tab, form feed,
carriage return. -/
def isSpaceC (c : Char) : Bool :=
  c.toNat = 32 ∨ c.toNat = 9 ∨ c.toNat = 10 ∨ c.toNat = 11 ∨
  c.toNat = 12 ∨ c.toNat = 13

/-- C isdigit: the characters 0 through 9. -/
def isDigitC (c : Char) : Bool := 48 ≤ c.toNat ∧ c.toNat ≤ 57

/-- An octal digit, 0 through 7 (what strtoul consumes in base 8). -/
def isOctC (c : Char) : Bool := 48 ≤ c.toNat ∧ c.toNat ≤ 55

/-- A hexadecimal digit (what strtoul consumes in base 16). -/
def isHexC (c : Char) : Bool :=
  (48 ≤ c.toNat ∧ c.toNat ≤ 57) ∨ (65 ≤ c.toNat ∧ c.toNat ≤ 70) ∨
  (97 ≤ c.toNat ∧ c.toNat ≤ 102)

/-- Value of a decimal digit character. -/
def digVal (c : Char) : Nat := c.toNat - 48

/-- Value of a hexadecimal digit character, either case. -/
def hexVal (c : Char) : Nat :=
  if c.toNat ≤ 57 then c.toNat - 48
  else if c.toNat ≤ 70 then c.toNat - 55
  else c.toNat - 87

/-! ## Numeric field parsing: strtoul(line+ofs, &end, 0)

The parser is only invoked when the current character is a digit, so the
sign/whitespace skipping of strtoul never fires.  Base inference: a 0x or
0X prefix followed by at least one hex digit selects base 16 (otherwise the
0 itself parses as a lone octal zero and scanning resumes at the x); a
leading 0 selects base 8; anything else base 10.  The result is the parsed
value and the unconsumed rest of the input. -/

/-- Fold a digit span into a value in the given base. -/
def spanVal (base : Nat) (v : Char → Nat) (ds : List Char) : Nat :=
  ds.foldl (fun a c => base * a + v c) 0

/-- strtoul with base 0, starting at a digit: value and unconsumed rest. -/
def parseNum (cs : List Char) : Nat × List Char :=
  match cs with
  | c0 :: c1 :: rest =>
    if c0.toNat = 48 ∧ (c1.toNat = 120 ∨ c1.toNat = 88) ∧
        rest.head?.any isHexC then
      (spanVal 16 hexVal (rest.takeWhile isHexC), rest.dropWhile isHexC)
    else if c0.toNat = 48 then
      (spanVal 8 digVal (cs.takeWhile isOctC), cs.dropWhile isOctC)
    else
      (spanVal 10 digVal (cs.takeWhile isDigitC), cs.dropWhile isDigitC)
  | _ =>
    if cs.head?.any (fun c => c.toNat = 48) then
      (spanVal 8 digVal (cs.takeWhile isOctC), cs.dropWhile isOctC)
    else
      (spanVal 10 digVal (cs.takeWhile isDigitC), cs.dropWhile isDigitC)

/-- The value that actually lands in the C variable N: strtoul saturates at
ULONG_MAX on overflow, and the assignment to unsigned int truncates
modulo 2^32. -/
def truncUInt (v : Nat) : Nat := (min v (2 ^ 64 - 1)) % 2 ^ 32

/-! ## Tokens

The main loop examines one character at a time: whitespace is skipped, a
# starts a comment running to end of line, a digit starts a numeric field,
and anything else goes through toupper into the command switch.  An
unrecognized character is a fatal error, so tokenization stops there with
a bad token. -/

inductive Tok where
  | numT (v : Nat)
  | cmdR
  | cmdW
  | cmdD
  | semi
  | bad
deriving Repr, DecidableEq

/-- The command switch: switch (toupper(line[ofs])).  toupper maps
lowercase d/r/w onto their uppercase codepoints; a semicolon is its own
case; everything else falls to the default, a fatal invalid character. -/
def classify (c : Char) : Option Tok :=
  if c.toNat = 68 ∨ c.toNat = 100 then some .cmdD
  else if c.toNat = 82 ∨ c.toNat = 114 then some .cmdR
  else if c.toNat = 87 ∨ c.toNat = 119 then some .cmdW
  else if c.toNat = 59 then some .semi
  else none

/-- Tokenizer worker.  The fuel argument only serves termination; each
recursive call consumes at least one character, so fuel equal to the input
length (as supplied by tokenize) never runs out. -/
def tokAux : Nat → List Char → List Tok
  | 0, _ => []
  | _, [] => []
  | fuel + 1, c :: cs =>
    if isSpaceC c then tokAux fuel cs
    else if c.toNat = 35 then
      tokAux fuel (cs.dropWhile (fun d => ¬ d.toNat = 10))
    else if isDigitC c then
      Tok.numT (truncUInt (parseNum (c :: cs)).1) ::
        tokAux fuel (parseNum (c :: cs)).2
    else
      match classify c with
      | some t => t :: tokAux fuel cs
      | none => [Tok.bad]

/-- Tokenize an input character stream. -/
def tokenize (cs : List Char) : List Tok := tokAux cs.length cs

/-! ## The machine state -/

/-- One slot of the struct i2c_msg array.  buf models the first len bytes
of the 256-byte malloc'd buffer of a write message; for a read message len
is the requested length and buf is unused. -/
structure Msg where
  addr : Nat := 0
  isRd : Bool := false
  len : Nat := 0
  buf : List Nat := []
deriving Repr, DecidableEq, Inhabited

/-- Parser state enum from the source. -/
inductive PState where
  | INIT | IDLE | READ | WRITE | WRITING | ADDR | BUS
deriving Repr, DecidableEq

/-- Error kinds of the fatal die() calls reachable from the core loop.
badTok covers both the "Invalid" (unrecognized character) and the
"Unexpected" (token forbidden in the current state) diagnostics - the
spec's SyntaxError. -/
inductive Err where
  | badTok
  | rangeErr
  | capacityErr
  | eofErr
deriving Repr, DecidableEq

/-- The whole mutable state of main(): current device address, parser
state, message count, the msgs array, plus a trace of every transact()
call made so far (each entry is the batch passed) and a fatal-error
latch - once err is set the process has died and nothing further
happens. -/
structure M where
  addr : Nat
  pstate : PState
  nmsgs : Nat
  msgs : List Msg
  dispatched : List (List Msg)
  err : Option Err
deriving Repr, DecidableEq

/-- The state at entry to the main loop. -/
def M.start : M :=
  { addr := 0
    pstate := .INIT
    nmsgs := 0
    msgs := List.replicate MAXMSGS {}
    dispatched := []
    err := none }

/-- The message slot under construction, msgs[nmsgs]. -/
def M.cur (s : M) : Msg := s.msgs.getD s.nmsgs default

/-- die(): latch the fatal error. -/
def M.fail (s : M) (e : Err) : M := { s with err := some e }

/-! ## Token transitions, one function per switch case of the source -/

/-- Tail of the R case after the state switch: the capacity check, then
msgs[nmsgs].addr = addr; msgs[nmsgs].flags = I2C_M_RD; state = READ. -/
def contR (s : M) : M :=
  if MAXMSGS ≤ s.nmsgs then s.fail .capacityErr
  else
    { s with
      msgs := s.msgs.set s.nmsgs { s.cur with addr := s.addr, isRd := true }
      pstate := .READ }

/-- The R case: from WRITING first commit the pending write message. -/
def stepR (s : M) : M :=
  match s.pstate with
  | .WRITING => contR { s with nmsgs := s.nmsgs + 1 }
  | .IDLE => contR s
  | _ => s.fail .badTok

/-- Tail of the W case: capacity check, then init the write message stub
(addr, flags = 0, len = 0) and enter WRITE. -/
def contW (s : M) : M :=
  if MAXMSGS ≤ s.nmsgs then s.fail .capacityErr
  else
    { s with
      msgs := s.msgs.set s.nmsgs
        { s.cur with addr := s.addr, isRd := false, len := 0, buf := [] }
      pstate := .WRITE }

/-- The W case: from WRITING first commit the pending write message. -/
def stepW (s : M) : M :=
  match s.pstate with
  | .WRITING => contW { s with nmsgs := s.nmsgs + 1 }
  | .IDLE => contW s
  | _ => s.fail .badTok

/-- The semicolon case: in WRITING commit the pending write and dispatch;
in IDLE dispatch a non-empty batch and clear it; in INIT a no-op; the
state becomes IDLE in every accepting branch. -/
def stepSemi (s : M) : M :=
  match s.pstate with
  | .WRITING =>
    { s with
      nmsgs := 0
      pstate := .IDLE
      dispatched := s.dispatched ++ [s.msgs.take (s.nmsgs + 1)] }
  | .INIT => { s with pstate := .IDLE }
  | .IDLE =>
    if s.nmsgs ≠ 0 then
      { s with nmsgs := 0, dispatched := s.dispatched ++ [s.msgs.take s.nmsgs] }
    else s
  | _ => s.fail .badTok

/-- The D case.  Note the faithful translation of the source's IDLE
branch: it calls transact but does NOT reset nmsgs (unlike the semicolon
case and the WRITING branch, which both clear the count). -/
def stepD (s : M) : M :=
  match s.pstate with
  | .WRITING =>
    { s with
      nmsgs := 0
      pstate := .ADDR
      dispatched := s.dispatched ++ [s.msgs.take (s.nmsgs + 1)] }
  | .INIT => { s with pstate := .ADDR }
  | .IDLE =>
    if s.nmsgs ≠ 0 then
      { s with
        pstate := .ADDR
        dispatched := s.dispatched ++ [s.msgs.take s.nmsgs] }
    else { s with pstate := .ADDR }
  | _ => s.fail .badTok

/-- msgs[nmsgs].buf[msgs[nmsgs].len++] = N, followed by the length check:
the store happens first, the overflow test (len > MAXLEN) second.  Returns
the stored-into message and whether the check then fires. -/
def appendByte (m : Msg) (v : Nat) : Msg × Bool :=
  ({ m with buf := m.buf ++ [v], len := m.len + 1 }, MAXLEN < m.len + 1)

/-- The digit case: the parsed value N lands in the state switch. -/
def stepNum (s : M) (v : Nat) : M :=
  match s.pstate with
  | .ADDR =>
    if 127 < v then s.fail .rangeErr
    else { s with addr := v, pstate := .BUS }
  | .BUS =>
    { s with pstate := .IDLE }
  | .READ =>
    if v < 1 ∨ MAXLEN < v then s.fail .rangeErr
    else
      { s with
        msgs := s.msgs.set s.nmsgs { s.cur with len := v }
        nmsgs := s.nmsgs + 1
        pstate := .IDLE }
  | .WRITE | .WRITING =>
    if 255 < v then s.fail .rangeErr
    else if (appendByte s.cur v).2 then
      M.fail { s with msgs := s.msgs.set s.nmsgs (appendByte s.cur v).1 }
        .capacityErr
    else
      { s with
        msgs := s.msgs.set s.nmsgs (appendByte s.cur v).1
        pstate := .WRITING }
  | _ => s.fail .badTok

/-- One token of the main loop; a dead process stays dead. -/
def step (s : M) (t : Tok) : M :=
  if s.err.isSome then s
  else
    match t with
    | .bad => s.fail .badTok
    | .cmdR => stepR s
    | .cmdW => stepW s
    | .cmdD => stepD s
    | .semi => stepSemi s
    | .numT v => stepNum s v

/-- Run the machine over a token list. -/
def runToks (s : M) (ts : List Tok) : M := ts.foldl step s

/-- The end-of-input switch after the getline loop. -/
def finish (s : M) : M :=
  if s.err.isSome then s
  else
    match s.pstate with
    | .WRITING =>
      { s with
        nmsgs := s.nmsgs + 1
        dispatched := s.dispatched ++ [s.msgs.take (s.nmsgs + 1)] }
    | .IDLE =>
      if s.nmsgs ≠ 0 then
        { s with dispatched := s.dispatched ++ [s.msgs.take s.nmsgs] }
      else s
    | _ => s.fail .eofErr

/-- The whole program on an input character stream. -/
def run (cs : List Char) : M := finish (runToks M.start (tokenize cs))

/-- In a formatted output mode each read message of a dispatched batch
produces exactly one output line (the printf("\n") per read message of
transact); write messages produce none. -/
def batchLines (b : List Msg) : Nat := (b.filter (fun m => m.isRd)).length

/-- Total formatted output lines over the whole run. -/
def outLines (s : M) : Nat := (s.dispatched.map batchLines).sum

/-! ## Concrete programs used as evidence -/

/-- A valid two-transaction program: each transaction reads one byte. -/
def c1input : List Char := ("D 0 0 R 1 D 0 0 R 1").toList

/-- The read message both R statements of c1input build. -/
def rdMsg1 : Msg := { addr := 0, isRd := true, len := 1, buf := [] }

/-- A write statement carrying MAXLEN + 1 byte values. -/
def c2input : List Char :=
  ("D 0 0 W").toList ++ (List.replicate 257 [' ', '1']).flatten

/-- A semicolon, then a read, with no D ever parsed. -/
def c3input : List Char := ("; R 1").toList

/-- Input reaching end of input in WRITING state, for the C5 witness. -/
def c5winput : List Char := ("D 1 0 W 5").toList

/-- A live state in ADDR expecting the device address, for the C6 witness. -/
def sAddr : M := { M.start with pstate := .ADDR }

/-- A live state in READ expecting the read length, for the C6 witness. -/
def sRead : M := { M.start with pstate := .READ }

/-- A live state in WRITE expecting the first byte, for the C6 witness. -/
def sWrite : M := { M.start with pstate := .WRITE }

/-- The write message both C10 programs build. -/
def wrMsg6 : Msg := { addr := 5, isRd := false, len := 1, buf := [6] }

/-- The write message the three C8 programs build. -/
def wrMsg16 : Msg := { addr := 0, isRd := false, len := 1, buf := [16] }

/-! ## Case equivalence (C7) -/

/-- Two characters are the same up to ASCII letter case: either equal, or
the same letter with the two codepoints 32 apart. -/
def eqvC (c d : Char) : Bool :=
  c = d ∨
  (c.toNat + 32 = d.toNat ∧ 65 ≤ c.toNat ∧ c.toNat ≤ 90) ∨
  (d.toNat + 32 = c.toNat ∧ 65 ≤ d.toNat ∧ d.toNat ≤ 90)

/-- Two inputs are the same up to letter case, position by position. -/
def eqvL : List Char → List Char → Bool
  | [], [] => true
  | c :: cs, d :: ds => eqvC c d && eqvL cs ds
  | _, _ => false

/-! ## The never-empty-write invariant (C9) -/

/-- A message is admissible on a transact call if, when it is a write
message, its byte sequence is non-empty. -/
def WriteOk (m : Msg) : Prop := m.isRd = false → m.buf ≠ []

/-- What holds of the machine while the process is still alive: the msgs
array keeps its allocated size, the message count respects the capacity,
the slot under construction is in range whenever a message is being
built, every committed message is an admissible write, and the slot under
construction has the flag and buffer contents its parser state implies. -/
def LiveInv (s : M) : Prop :=
  s.msgs.length = MAXMSGS ∧
  s.nmsgs ≤ MAXMSGS ∧
  ((s.pstate = .READ ∨ s.pstate = .WRITE ∨ s.pstate = .WRITING) →
    s.nmsgs < MAXMSGS) ∧
  (∀ i, i < s.nmsgs → WriteOk (s.msgs.getD i default)) ∧
  (s.pstate = .WRITING → s.cur.isRd = false ∧ s.cur.buf ≠ []) ∧
  (s.pstate = .READ → s.cur.isRd = true) ∧
  (s.pstate = .WRITE → s.cur.isRd = false)

/-- The run invariant: every message of every batch ever passed to
transact is an admissible write, and while no fatal error has occurred
the live invariant holds. -/
def Inv (s : M) : Prop :=
  (∀ b ∈ s.dispatched, ∀ m ∈ b, WriteOk m) ∧ (s.err = none → LiveInv s)

set_option maxRecDepth 40000

/-! ## Basic lemmas: a dead process stays dead -/

theorem step_frozen (s : M) (t : Tok) (h : s.err.isSome = true) :
    step s t = s := by
  simp [step, h]

theorem runToks_frozen (s : M) (ts : List Tok) (h : s.err.isSome = true) :
    runToks s ts = s := by
  induction ts with
  | nil => rfl
  | cons t ts ih =>
    show runToks (step s t) ts = s
    rw [step_frozen s t h]
    exact ih

theorem finish_frozen (s : M) (h : s.err.isSome = true) : finish s = s := by
  simp [finish, h]

theorem step_num_live (s : M) (v : Nat) (he : s.err = none) :
    step s (.numT v) = stepNum s v := by
  simp [step, he]

/-! ## List access lemmas -/

theorem getD_set_self (l : List Msg) (i : Nat) (m : Msg) (h : i < l.length) :
    (l.set i m).getD i default = m := by
  simp [List.getD, List.getElem?_set, h]

theorem getD_set_ne (l : List Msg) (i j : Nat) (m : Msg) (h : ¬ i = j) :
    (l.set i m).getD j default = l.getD j default := by
  simp [List.getD, List.getElem?_set, h]

theorem getD_of_mem_take (l : List Msg) (n : Nat) (m : Msg)
    (hm : m ∈ l.take n) :
    ∃ i, i < n ∧ i < l.length ∧ l.getD i default = m := by
  obtain ⟨i, hi, hget⟩ := List.getElem_of_mem hm
  rw [List.length_take] at hi
  have h2 : i < l.length := by omega
  refine ⟨i, by omega, h2, ?_⟩
  rw [← hget, List.getElem_take]
  simp [List.getD, List.getElem?_eq_getElem h2]

/-! ## C1 -/

/-- C1: the claim that a D token arriving in IDLE state dispatches the
batch and then clears it (message count reset to zero), so that no message
is ever passed to the transport twice, fails on the code: the IDLE branch
of the D case calls transact but never resets nmsgs.  On the input
"D 0 0 R 1 D 0 0 R 1" the run completes without error, yet the read
message of the first transaction reappears in the second transact call:
the trace is [[r], [r, r]] instead of [[r], [r]]. -/
theorem c1_dispatch_not_cleared :
    (run c1input).err = none ∧
    (run c1input).dispatched = [[rdMsg1], [rdMsg1, rdMsg1]] := by
  decide

/-! ## C2 -/

/-- C2: the claim that a byte arriving when the current write message
already holds MAXLEN bytes is rejected before any byte is stored fails on
the code: the source executes buf[len++] = N first and only then tests
len > MAXLEN.  Running a write statement with MAXLEN + 1 byte values dies
with the capacity error, but the message has already received all
MAXLEN + 1 bytes - the last store going to index MAXLEN, one past the end
of the MAXLEN-byte buffer.  The final conjunct isolates the order: the
store of appendByte happens unconditionally, whatever the length. -/
theorem c2_store_precedes_check :
    (run c2input).err = some .capacityErr ∧
    ((run c2input).msgs.getD 0 default).len = MAXLEN + 1 ∧
    ((run c2input).msgs.getD 0 default).buf.length = MAXLEN + 1 ∧
    (∀ (m : Msg) (v : Nat), ((appendByte m v).1).buf = m.buf ++ [v]) := by
  refine ⟨by decide, by decide, by decide, fun m v => rfl⟩

/-! ## C3 -/

/-- C3 counterexample: the claim says any input of semicolons followed by
R or W fails with a SyntaxError because the parser stays in the
pre-address state across leading semicolons.  It does not: on "; R 1" the
run completes with no error at all, and even dispatches a read message
addressed to device 0. -/
theorem c3_counterexample_semi_then_read :
    (run c3input).err = none ∧ (run c3input).dispatched = [[rdMsg1]] := by
  decide

/-- C3 amended: an R or W token while the parser is still in INIT state is
a SyntaxError that kills the run, so no R/W is accepted before the first
semicolon or D command; but a semicolon in INIT moves the parser to IDLE
(the source assigns state = IDLE after the semicolon switch), after which
R and W are accepted with the initial device address 0 - an input of
semicolons followed by R/W is therefore not rejected. -/
theorem c3_amended_init_gate :
    (∀ ts : List Tok,
      (finish (runToks M.start (Tok.cmdR :: ts))).err = some .badTok) ∧
    (∀ ts : List Tok,
      (finish (runToks M.start (Tok.cmdW :: ts))).err = some .badTok) ∧
    runToks M.start [Tok.semi] = { M.start with pstate := .IDLE } := by
  refine ⟨fun ts => ?_, fun ts => ?_, rfl⟩
  · show (finish (runToks (step M.start .cmdR) ts)).err = some .badTok
    rw [show step M.start .cmdR = M.start.fail .badTok from rfl]
    rw [runToks_frozen (M.start.fail .badTok) ts rfl]
    rfl
  · show (finish (runToks (step M.start .cmdW) ts)).err = some .badTok
    rw [show step M.start .cmdW = M.start.fail .badTok from rfl]
    rw [runToks_frozen (M.start.fail .badTok) ts rfl]
    rfl

/-! ## C4 -/

/-- C4: the claim that for every valid program the number of formatted
output lines equals the number of R statements belonging to dispatched
transactions fails on the code, through the same missing batch clear as
C1: "D 0 0 R 1 D 0 0 R 1" is a valid program (the run completes without
error) containing exactly two R statements, both of whose transactions
reach dispatch, yet the run prints three output lines, because the first
read message is dispatched - and printed - a second time as part of the
second transaction. -/
theorem c4_output_line_count :
    (run c1input).err = none ∧
    (tokenize c1input).count Tok.cmdR = 2 ∧
    outLines (run c1input) = 3 := by
  decide

/-! ## C5 -/

/-- C5: end-of-input handling.  For any input whose token stream is
processed without a fatal error: the run ends with UnexpectedEndOfInput
exactly when the parser is in neither WRITING nor IDLE (that is, in INIT,
READ, WRITE, ADDR or BUS); ending in WRITING finalizes the pending write
message and dispatches the whole transaction including it; ending in IDLE
dispatches the pending transaction exactly when it is non-empty. -/
theorem c5_end_of_input (cs : List Char) (s : M)
    (hs : runToks M.start (tokenize cs) = s) (he : s.err = none) :
    ((run cs).err = some Err.eofErr ↔
      (s.pstate ≠ .WRITING ∧ s.pstate ≠ .IDLE)) ∧
    (s.pstate = .WRITING →
      (run cs).err = none ∧
      (run cs).dispatched = s.dispatched ++ [s.msgs.take (s.nmsgs + 1)]) ∧
    (s.pstate = .IDLE →
      (run cs).err = none ∧
      (run cs).dispatched =
        if s.nmsgs = 0 then s.dispatched
        else s.dispatched ++ [s.msgs.take s.nmsgs]) := by
  have hrun : run cs = finish s := by rw [run, hs]
  rw [hrun]
  cases hp : s.pstate <;>
    by_cases hn : s.nmsgs = 0 <;>
      simp [finish, he, hp, hn, M.fail]

/-- C5 witness: on "D 1 0 W 5" the input ends in WRITING state, and the
run finalizes the write message and dispatches the one-message batch. -/
theorem c5_witness :
    (run c5winput).err = none ∧
    (run c5winput).dispatched =
      (runToks M.start (tokenize c5winput)).dispatched ++
        [(runToks M.start (tokenize c5winput)).msgs.take
          ((runToks M.start (tokenize c5winput)).nmsgs + 1)] :=
  (c5_end_of_input c5winput (runToks M.start (tokenize c5winput)) rfl
    (by decide)).2.1 (by decide)

/-! ## C6 -/

/-- C6: a numeric field raises RangeError exactly when it is out of bounds
for the state consuming it.  In any live machine state: in ADDR the step
on value v dies with RangeError iff v > 127, and otherwise stores v as the
device address and moves to BUS; in READ it dies with RangeError iff v is
outside [1, MAXLEN], and otherwise stores v as the read length, commits
the message and returns to IDLE; in WRITE or WRITING it dies with
RangeError iff v > 255, and otherwise the byte v is appended to the
current write message's buffer. -/
theorem c6_range_checks (s : M) (v : Nat) (he : s.err = none) :
    (s.pstate = .ADDR →
      (((step s (.numT v)).err = some Err.rangeErr) ↔ 127 < v) ∧
      (v ≤ 127 → step s (.numT v) = { s with addr := v, pstate := .BUS })) ∧
    (s.pstate = .READ →
      (((step s (.numT v)).err = some Err.rangeErr) ↔ (v < 1 ∨ MAXLEN < v)) ∧
      (1 ≤ v → v ≤ MAXLEN →
        step s (.numT v) =
          { s with
            msgs := s.msgs.set s.nmsgs { s.cur with len := v }
            nmsgs := s.nmsgs + 1
            pstate := .IDLE })) ∧
    ((s.pstate = .WRITE ∨ s.pstate = .WRITING) →
      (((step s (.numT v)).err = some Err.rangeErr) ↔ 255 < v) ∧
      (v ≤ 255 →
        (step s (.numT v)).msgs = s.msgs.set s.nmsgs ((appendByte s.cur v).1) ∧
        ((appendByte s.cur v).1).buf = s.cur.buf ++ [v])) := by
  rw [step_num_live s v he]
  refine ⟨fun hp => ?_, fun hp => ?_, fun hp => ?_⟩
  · constructor
    · simp only [stepNum, hp]
      split
      next h => simp [M.fail, h]
      next h => simp [he]; omega
    · intro h
      simp only [stepNum, hp]
      rw [if_neg (by omega)]
  · constructor
    · simp only [stepNum, hp]
      split
      next h => simp [M.fail]; omega
      next h => simp [he]; omega
    · intro h1 h2
      simp only [stepNum, hp]
      rw [if_neg (by omega)]
  · have hstep : stepNum s v =
        (if 255 < v then s.fail .rangeErr
         else if (appendByte s.cur v).2 then
           M.fail { s with msgs := s.msgs.set s.nmsgs (appendByte s.cur v).1 }
             .capacityErr
         else
           { s with
             msgs := s.msgs.set s.nmsgs (appendByte s.cur v).1
             pstate := .WRITING }) := by
      rcases hp with hp | hp <;> simp only [stepNum, hp]
    rw [hstep]
    constructor
    · by_cases h : 255 < v
      · rw [if_pos h]
        simp [M.fail, h]
      · rw [if_neg h]
        split
        next h2 => simp [M.fail, he, h]
        next h2 => simp [he, h]
    · intro h
      rw [if_neg (by omega)]
      refine ⟨?_, rfl⟩
      split <;> rfl

/-- C6 witness: concrete instances of every branch - address 200 is a
RangeError and address 100 is stored; read length 0 is a RangeError; write
value 300 is a RangeError and write value 7 is appended. -/
theorem c6_witness :
    (step sAddr (.numT 200)).err = some Err.rangeErr ∧
    step sAddr (.numT 100) = { sAddr with addr := 100, pstate := .BUS } ∧
    (step sRead (.numT 0)).err = some Err.rangeErr ∧
    (step sWrite (.numT 300)).err = some Err.rangeErr ∧
    ((appendByte sWrite.cur 7).1).buf = sWrite.cur.buf ++ [7] :=
  ⟨((c6_range_checks sAddr 200 rfl).1 rfl).1.mpr (by omega),
   ((c6_range_checks sAddr 100 rfl).1 rfl).2 (by omega),
   ((c6_range_checks sRead 0 rfl).2.1 rfl).1.mpr (by omega),
   ((c6_range_checks sWrite 300 rfl).2.2 (Or.inl rfl)).1.mpr (by omega),
   (((c6_range_checks sWrite 7 rfl).2.2 (Or.inl rfl)).2 (by omega)).2⟩

/-! ## C10 -/

/-- C10: no whitespace is required between a numeric literal and a
following command letter - scanning resumes at the first character the
number parser did not consume, so "D 5 0W 6;" runs to exactly the same
machine state as "D 5 0 W 6 ;", both dispatching the single one-byte
write message without error. -/
theorem c10_number_then_letter :
    run (("D 5 0W 6;").toList) = run (("D 5 0 W 6 ;").toList) ∧
    (run (("D 5 0W 6;").toList)).dispatched = [[wrMsg6]] ∧
    (run (("D 5 0W 6;").toList)).err = none := by
  decide

/-! ## C8 -/

/-- C8: numeric literals use C-style base inference: a 0x/0X prefix
followed by a hex digit selects base 16, a leading 0 followed by digits
selects base 8, anything else base 10.  The two-digit forms are proved
for arbitrary digit characters, and the three tokens 0x10, 020 and 16
all parse to the value 16 - used as a write byte value, each produces the
identical dispatched one-byte write message. -/
theorem c8_base_inference :
    (parseNum (("0x10").toList)).1 = 16 ∧
    (parseNum (("020").toList)).1 = 16 ∧
    (parseNum (("16").toList)).1 = 16 ∧
    (∀ a b : Char, isHexC a = true → isHexC b = true →
      (parseNum ['0', 'x', a, b]).1 = 16 * hexVal a + hexVal b) ∧
    (∀ a b : Char, isOctC a = true → isOctC b = true →
      (parseNum ['0', a, b]).1 = 8 * digVal a + digVal b) ∧
    (∀ a b : Char, isDigitC a = true → isDigitC b = true →
      ¬ a.toNat = 48 →
      (parseNum [a, b]).1 = 10 * digVal a + digVal b) ∧
    (run (("D 0 0 W 0x10;").toList)).dispatched = [[wrMsg16]] ∧
    (run (("D 0 0 W 020;").toList)).dispatched = [[wrMsg16]] ∧
    (run (("D 0 0 W 16;").toList)).dispatched = [[wrMsg16]] := by
  refine ⟨by decide, by decide, by decide, ?_, ?_, ?_, by decide, by decide,
    by decide⟩
  · intro a b ha hb
    have hcond : (('0' : Char).toNat = 48 ∧
        (('x' : Char).toNat = 120 ∨ ('x' : Char).toNat = 88) ∧
        ([a, b].head?.any isHexC = true)) :=
      ⟨by decide, Or.inl (by decide), by simp [ha]⟩
    simp only [parseNum]
    rw [if_pos hcond]
    simp [List.takeWhile_cons, ha, hb, spanVal]
  · intro a b ha hb
    have hno : ¬ (('0' : Char).toNat = 48 ∧ (a.toNat = 120 ∨ a.toNat = 88) ∧
        ([b].head?.any isHexC = true)) := by
      intro hcontra
      simp [isOctC] at ha
      rcases hcontra.2.1 with h | h <;> omega
    have h0 : isOctC '0' = true := by decide
    have h0v : digVal '0' = 0 := by decide
    simp only [parseNum]
    rw [if_neg hno, if_pos (by decide)]
    simp [List.takeWhile_cons, h0, ha, hb, spanVal, h0v]
  · intro a b ha hb h48
    have hno : ¬ (a.toNat = 48 ∧ (b.toNat = 120 ∨ b.toNat = 88) ∧
        (([] : List Char).head?.any isHexC = true)) := fun hcontra =>
      h48 hcontra.1
    simp only [parseNum]
    rw [if_neg hno, if_neg h48]
    simp [List.takeWhile_cons, ha, hb, spanVal]

/-- C8 witness: applying the general base-inference forms at the literals
0x1f (hex), 023 (octal) and 42 (decimal). -/
theorem c8_witness :
    (parseNum ['0', 'x', '1', 'f']).1 = 16 * hexVal '1' + hexVal 'f' ∧
    (parseNum ['0', '2', '3']).1 = 8 * digVal '2' + digVal '3' ∧
    (parseNum ['4', '2']).1 = 10 * digVal '4' + digVal '2' :=
  ⟨c8_base_inference.2.2.2.1 '1' 'f' (by decide) (by decide),
   c8_base_inference.2.2.2.2.1 '2' '3' (by decide) (by decide),
   c8_base_inference.2.2.2.2.2.1 '4' '2' (by decide) (by decide) (by decide)⟩

/-! ## C9 -/

theorem inv_fail (s : M) (e : Err) (h : Inv s) : Inv (s.fail e) := by
  refine ⟨h.1, fun hc => ?_⟩
  simp [M.fail] at hc

theorem writeok_take (s : M) (n : Nat)
    (hsl : ∀ i, i < n → WriteOk (s.msgs.getD i default)) :
    ∀ m ∈ s.msgs.take n, WriteOk m := by
  intro m hm
  obtain ⟨i, hi1, _, hget⟩ := getD_of_mem_take s.msgs n m hm
  rw [← hget]
  exact hsl i hi1

theorem inv_contR (s : M) (hlen : s.msgs.length = MAXMSGS)
    (hn : s.nmsgs ≤ MAXMSGS)
    (hcom : ∀ i, i < s.nmsgs → WriteOk (s.msgs.getD i default))
    (hdisp : ∀ b ∈ s.dispatched, ∀ m ∈ b, WriteOk m) :
    Inv (contR s) := by
  unfold contR
  split
  next hg => exact ⟨hdisp, fun hc => by simp [M.fail] at hc⟩
  next hg =>
    have hnm : s.nmsgs < MAXMSGS := by omega
    have hns : s.nmsgs < s.msgs.length := by omega
    refine ⟨hdisp, fun _ => ⟨?_, hn, fun _ => hnm, ?_, ?_, ?_, ?_⟩⟩
    · show (s.msgs.set s.nmsgs _).length = MAXMSGS
      rw [List.length_set]
      exact hlen
    · intro i hi
      have hi2 : i < s.nmsgs := hi
      show WriteOk ((s.msgs.set s.nmsgs _).getD i default)
      rw [getD_set_ne s.msgs s.nmsgs i _ (by omega)]
      exact hcom i hi2
    · intro hc
      exact absurd hc (by simp)
    · intro _
      show ((s.msgs.set s.nmsgs _).getD s.nmsgs default).isRd = true
      rw [getD_set_self s.msgs s.nmsgs _ hns]
    · intro hc
      exact absurd hc (by simp)

theorem inv_contW (s : M) (hlen : s.msgs.length = MAXMSGS)
    (hn : s.nmsgs ≤ MAXMSGS)
    (hcom : ∀ i, i < s.nmsgs → WriteOk (s.msgs.getD i default))
    (hdisp : ∀ b ∈ s.dispatched, ∀ m ∈ b, WriteOk m) :
    Inv (contW s) := by
  unfold contW
  split
  next hg => exact ⟨hdisp, fun hc => by simp [M.fail] at hc⟩
  next hg =>
    have hnm : s.nmsgs < MAXMSGS := by omega
    have hns : s.nmsgs < s.msgs.length := by omega
    refine ⟨hdisp, fun _ => ⟨?_, hn, fun _ => hnm, ?_, ?_, ?_, ?_⟩⟩
    · show (s.msgs.set s.nmsgs _).length = MAXMSGS
      rw [List.length_set]
      exact hlen
    · intro i hi
      have hi2 : i < s.nmsgs := hi
      show WriteOk ((s.msgs.set s.nmsgs _).getD i default)
      rw [getD_set_ne s.msgs s.nmsgs i _ (by omega)]
      exact hcom i hi2
    · intro hc
      exact absurd hc (by simp)
    · intro hc
      exact absurd hc (by simp)
    · intro _
      show ((s.msgs.set s.nmsgs _).getD s.nmsgs default).isRd = false
      rw [getD_set_self s.msgs s.nmsgs _ hns]

theorem inv_stepR (s : M) (he : s.err = none) (h : Inv s) : Inv (stepR s) := by
  obtain ⟨a, p, n, ms, d, e⟩ := s
  obtain ⟨hdisp0, hlive⟩ := h
  obtain ⟨hlen0, hn0, hbound0, hcom0, hwr0, hrd0, hwrt0⟩ := hlive he
  have hlen : ms.length = MAXMSGS := hlen0
  have hn : n ≤ MAXMSGS := hn0
  have hcom : ∀ i, i < n → WriteOk (ms.getD i default) := hcom0
  have hdisp : ∀ b ∈ d, ∀ m ∈ b, WriteOk m := hdisp0
  cases p
  case WRITING =>
    have hnm : n < MAXMSGS := hbound0 (Or.inr (Or.inr rfl))
    have hcb : (ms.getD n default).buf ≠ [] := (hwr0 rfl).2
    exact inv_contR ⟨a, .WRITING, n + 1, ms, d, e⟩ hlen
      (show n + 1 ≤ MAXMSGS by omega)
      (fun i hi => by
        have hi2 : i < n + 1 := hi
        rcases Nat.lt_or_ge i n with hlt | hge
        · exact hcom i hlt
        · have hieq : i = n := by omega
          subst hieq
          exact fun _ => hcb)
      hdisp
  case IDLE => exact inv_contR ⟨a, .IDLE, n, ms, d, e⟩ hlen hn hcom hdisp
  case INIT => exact ⟨hdisp, fun hc => by simp [stepR, M.fail] at hc⟩
  case READ => exact ⟨hdisp, fun hc => by simp [stepR, M.fail] at hc⟩
  case WRITE => exact ⟨hdisp, fun hc => by simp [stepR, M.fail] at hc⟩
  case ADDR => exact ⟨hdisp, fun hc => by simp [stepR, M.fail] at hc⟩
  case BUS => exact ⟨hdisp, fun hc => by simp [stepR, M.fail] at hc⟩

theorem inv_stepW (s : M) (he : s.err = none) (h : Inv s) : Inv (stepW s) := by
  obtain ⟨a, p, n, ms, d, e⟩ := s
  obtain ⟨hdisp0, hlive⟩ := h
  obtain ⟨hlen0, hn0, hbound0, hcom0, hwr0, hrd0, hwrt0⟩ := hlive he
  have hlen : ms.length = MAXMSGS := hlen0
  have hn : n ≤ MAXMSGS := hn0
  have hcom : ∀ i, i < n → WriteOk (ms.getD i default) := hcom0
  have hdisp : ∀ b ∈ d, ∀ m ∈ b, WriteOk m := hdisp0
  cases p
  case WRITING =>
    have hnm : n < MAXMSGS := hbound0 (Or.inr (Or.inr rfl))
    have hcb : (ms.getD n default).buf ≠ [] := (hwr0 rfl).2
    exact inv_contW ⟨a, .WRITING, n + 1, ms, d, e⟩ hlen
      (show n + 1 ≤ MAXMSGS by omega)
      (fun i hi => by
        have hi2 : i < n + 1 := hi
        rcases Nat.lt_or_ge i n with hlt | hge
        · exact hcom i hlt
        · have hieq : i = n := by omega
          subst hieq
          exact fun _ => hcb)
      hdisp
  case IDLE => exact inv_contW ⟨a, .IDLE, n, ms, d, e⟩ hlen hn hcom hdisp
  case INIT => exact ⟨hdisp, fun hc => by simp [stepW, M.fail] at hc⟩
  case READ => exact ⟨hdisp, fun hc => by simp [stepW, M.fail] at hc⟩
  case WRITE => exact ⟨hdisp, fun hc => by simp [stepW, M.fail] at hc⟩
  case ADDR => exact ⟨hdisp, fun hc => by simp [stepW, M.fail] at hc⟩
  case BUS => exact ⟨hdisp, fun hc => by simp [stepW, M.fail] at hc⟩

theorem inv_stepSemi (s : M) (he : s.err = none) (h : Inv s) :
    Inv (stepSemi s) := by
  obtain ⟨a, p, n, ms, d, e⟩ := s
  obtain ⟨hdisp0, hlive⟩ := h
  obtain ⟨hlen0, hn0, hbound0, hcom0, hwr0, hrd0, hwrt0⟩ := hlive he
  have hlen : ms.length = MAXMSGS := hlen0
  have hn : n ≤ MAXMSGS := hn0
  have hcom : ∀ i, i < n → WriteOk (ms.getD i default) := hcom0
  have hdisp : ∀ b ∈ d, ∀ m ∈ b, WriteOk m := hdisp0
  cases p
  case WRITING =>
    have hcb : (ms.getD n default).buf ≠ [] := (hwr0 rfl).2
    have hsl : ∀ i, i < n + 1 → WriteOk (ms.getD i default) := by
      intro i hi
      rcases Nat.lt_or_ge i n with hlt | hge
      · exact hcom i hlt
      · have hieq : i = n := by omega
        subst hieq
        exact fun _ => hcb
    refine ⟨?_, fun _ => ⟨hlen, show (0 : Nat) ≤ MAXMSGS by omega,
      fun hc => by simp [stepSemi, M.fail] at hc,
      fun i hi => absurd (show i < 0 from hi) (by omega),
      fun hc => by simp [stepSemi, M.fail] at hc, fun hc => by simp [stepSemi, M.fail] at hc,
      fun hc => by simp [stepSemi, M.fail] at hc⟩⟩
    intro b hb
    have hb2 : b ∈ d ++ [ms.take (n + 1)] := hb
    rw [List.mem_append] at hb2
    rcases hb2 with hb2 | hb2
    · exact hdisp b hb2
    · rw [List.mem_singleton] at hb2
      subst hb2
      exact writeok_take ⟨a, .WRITING, n, ms, d, e⟩ (n + 1) hsl
  case INIT =>
    exact ⟨hdisp, fun _ => ⟨hlen, hn, fun hc => by simp [stepSemi, M.fail] at hc, hcom,
      fun hc => by simp [stepSemi, M.fail] at hc, fun hc => by simp [stepSemi, M.fail] at hc,
      fun hc => by simp [stepSemi, M.fail] at hc⟩⟩
  case IDLE =>
    show Inv (if n ≠ 0 then _ else _)
    split
    next hnz =>
      refine ⟨?_, fun _ => ⟨hlen, show (0 : Nat) ≤ MAXMSGS by omega,
        fun hc => by simp [stepSemi, M.fail] at hc,
        fun i hi => absurd (show i < 0 from hi) (by omega),
        fun hc => by simp [stepSemi, M.fail] at hc, fun hc => by simp [stepSemi, M.fail] at hc,
        fun hc => by simp [stepSemi, M.fail] at hc⟩⟩
      intro b hb
      have hb2 : b ∈ d ++ [ms.take n] := hb
      rw [List.mem_append] at hb2
      rcases hb2 with hb2 | hb2
      · exact hdisp b hb2
      · rw [List.mem_singleton] at hb2
        subst hb2
        exact writeok_take ⟨a, .IDLE, n, ms, d, e⟩ n hcom
    next hnz =>
      exact ⟨hdisp, fun _ => ⟨hlen, hn, fun hc => by simp [stepSemi, M.fail] at hc, hcom,
        fun hc => by simp [stepSemi, M.fail] at hc, fun hc => by simp [stepSemi, M.fail] at hc,
        fun hc => by simp [stepSemi, M.fail] at hc⟩⟩
  case READ => exact ⟨hdisp, fun hc => by simp [stepSemi, M.fail] at hc⟩
  case WRITE => exact ⟨hdisp, fun hc => by simp [stepSemi, M.fail] at hc⟩
  case ADDR => exact ⟨hdisp, fun hc => by simp [stepSemi, M.fail] at hc⟩
  case BUS => exact ⟨hdisp, fun hc => by simp [stepSemi, M.fail] at hc⟩

theorem inv_stepD (s : M) (he : s.err = none) (h : Inv s) :
    Inv (stepD s) := by
  obtain ⟨a, p, n, ms, d, e⟩ := s
  obtain ⟨hdisp0, hlive⟩ := h
  obtain ⟨hlen0, hn0, hbound0, hcom0, hwr0, hrd0, hwrt0⟩ := hlive he
  have hlen : ms.length = MAXMSGS := hlen0
  have hn : n ≤ MAXMSGS := hn0
  have hcom : ∀ i, i < n → WriteOk (ms.getD i default) := hcom0
  have hdisp : ∀ b ∈ d, ∀ m ∈ b, WriteOk m := hdisp0
  cases p
  case WRITING =>
    have hcb : (ms.getD n default).buf ≠ [] := (hwr0 rfl).2
    have hsl : ∀ i, i < n + 1 → WriteOk (ms.getD i default) := by
      intro i hi
      rcases Nat.lt_or_ge i n with hlt | hge
      · exact hcom i hlt
      · have hieq : i = n := by omega
        subst hieq
        exact fun _ => hcb
    refine ⟨?_, fun _ => ⟨hlen, show (0 : Nat) ≤ MAXMSGS by omega,
      fun hc => by simp [stepD, M.fail] at hc,
      fun i hi => absurd (show i < 0 from hi) (by omega),
      fun hc => by simp [stepD, M.fail] at hc, fun hc => by simp [stepD, M.fail] at hc,
      fun hc => by simp [stepD, M.fail] at hc⟩⟩
    intro b hb
    have hb2 : b ∈ d ++ [ms.take (n + 1)] := hb
    rw [List.mem_append] at hb2
    rcases hb2 with hb2 | hb2
    · exact hdisp b hb2
    · rw [List.mem_singleton] at hb2
      subst hb2
      exact writeok_take ⟨a, .WRITING, n, ms, d, e⟩ (n + 1) hsl
  case INIT =>
    exact ⟨hdisp, fun _ => ⟨hlen, hn, fun hc => by simp [stepD, M.fail] at hc, hcom,
      fun hc => by simp [stepD, M.fail] at hc, fun hc => by simp [stepD, M.fail] at hc,
      fun hc => by simp [stepD, M.fail] at hc⟩⟩
  case IDLE =>
    show Inv (if n ≠ 0 then _ else _)
    split
    next hnz =>
      refine ⟨?_, fun _ => ⟨hlen, hn, fun hc => by simp [stepD, M.fail] at hc, hcom,
        fun hc => by simp [stepD, M.fail] at hc, fun hc => by simp [stepD, M.fail] at hc,
        fun hc => by simp [stepD, M.fail] at hc⟩⟩
      intro b hb
      have hb2 : b ∈ d ++ [ms.take n] := hb
      rw [List.mem_append] at hb2
      rcases hb2 with hb2 | hb2
      · exact hdisp b hb2
      · rw [List.mem_singleton] at hb2
        subst hb2
        exact writeok_take ⟨a, .IDLE, n, ms, d, e⟩ n hcom
    next hnz =>
      exact ⟨hdisp, fun _ => ⟨hlen, hn, fun hc => by simp [stepD, M.fail] at hc, hcom,
        fun hc => by simp [stepD, M.fail] at hc, fun hc => by simp [stepD, M.fail] at hc,
        fun hc => by simp [stepD, M.fail] at hc⟩⟩
  case READ => exact ⟨hdisp, fun hc => by simp [stepD, M.fail] at hc⟩
  case WRITE => exact ⟨hdisp, fun hc => by simp [stepD, M.fail] at hc⟩
  case ADDR => exact ⟨hdisp, fun hc => by simp [stepD, M.fail] at hc⟩
  case BUS => exact ⟨hdisp, fun hc => by simp [stepD, M.fail] at hc⟩

theorem inv_stepNum (s : M) (v : Nat) (he : s.err = none) (h : Inv s) :
    Inv (stepNum s v) := by
  obtain ⟨a, p, n, ms, d, e⟩ := s
  obtain ⟨hdisp0, hlive⟩ := h
  obtain ⟨hlen0, hn0, hbound0, hcom0, hwr0, hrd0, hwrt0⟩ := hlive he
  have hlen : ms.length = MAXMSGS := hlen0
  have hn : n ≤ MAXMSGS := hn0
  have hcom : ∀ i, i < n → WriteOk (ms.getD i default) := hcom0
  have hdisp : ∀ b ∈ d, ∀ m ∈ b, WriteOk m := hdisp0
  cases p
  case ADDR =>
    show Inv (if 127 < v then _ else _)
    split
    next => exact ⟨hdisp, fun hc => by simp [stepNum, M.fail] at hc⟩
    next =>
      exact ⟨hdisp, fun _ => ⟨hlen, hn, fun hc => by simp [stepNum, M.fail] at hc, hcom,
        fun hc => by simp [stepNum, M.fail] at hc, fun hc => by simp [stepNum, M.fail] at hc,
        fun hc => by simp [stepNum, M.fail] at hc⟩⟩
  case BUS =>
    exact ⟨hdisp, fun _ => ⟨hlen, hn, fun hc => by simp [stepNum, M.fail] at hc, hcom,
      fun hc => by simp [stepNum, M.fail] at hc, fun hc => by simp [stepNum, M.fail] at hc,
      fun hc => by simp [stepNum, M.fail] at hc⟩⟩
  case READ =>
    have hnm : n < MAXMSGS := hbound0 (Or.inl rfl)
    have hns : n < ms.length := by omega
    have hcr : (ms.getD n default).isRd = true := hrd0 rfl
    show Inv (if v < 1 ∨ MAXLEN < v then _ else _)
    split
    next => exact ⟨hdisp, fun hc => by simp [stepNum, M.fail] at hc⟩
    next =>
      refine ⟨hdisp, fun _ => ⟨?_, show n + 1 ≤ MAXMSGS by omega,
        fun hc => by simp [stepNum, M.fail] at hc, ?_,
        fun hc => by simp [stepNum, M.fail] at hc, fun hc => by simp [stepNum, M.fail] at hc,
        fun hc => by simp [stepNum, M.fail] at hc⟩⟩
      · show (ms.set n _).length = MAXMSGS
        rw [List.length_set]
        exact hlen
      · intro i hi
        have hi2 : i < n + 1 := hi
        show WriteOk ((ms.set n _).getD i default)
        rcases Nat.lt_or_ge i n with hlt | hge
        · rw [getD_set_ne ms n i _ (by omega)]
          exact hcom i hlt
        · have hieq : i = n := by omega
          subst hieq
          rw [getD_set_self ms i _ hns]
          intro hflag
          exact absurd (hcr.symm.trans hflag) (by simp)
  case WRITE =>
    have hnm : n < MAXMSGS := hbound0 (Or.inr (Or.inl rfl))
    have hns : n < ms.length := by omega
    have hcw : (ms.getD n default).isRd = false := hwrt0 rfl
    show Inv (if 255 < v then _ else _)
    split
    next => exact ⟨hdisp, fun hc => by simp [stepNum, M.fail] at hc⟩
    next =>
      show Inv (if (appendByte _ v).2 then _ else _)
      split
      next => exact ⟨hdisp, fun hc => by simp [stepNum, M.fail] at hc⟩
      next =>
        refine ⟨hdisp, fun _ => ⟨?_, hn, fun _ => hnm, ?_,
          fun _ => ⟨?_, ?_⟩, fun hc => by simp [stepNum, M.fail] at hc,
          fun hc => by simp [stepNum, M.fail] at hc⟩⟩
        · show (ms.set n _).length = MAXMSGS
          rw [List.length_set]
          exact hlen
        · intro i hi
          have hi2 : i < n := hi
          show WriteOk ((ms.set n _).getD i default)
          rw [getD_set_ne ms n i _ (by omega)]
          exact hcom i hi2
        · show ((ms.set n _).getD n default).isRd = false
          rw [getD_set_self ms n _ hns]
          exact hcw
        · show ((ms.set n _).getD n default).buf ≠ []
          rw [getD_set_self ms n _ hns]
          simp [appendByte]
  case WRITING =>
    have hnm : n < MAXMSGS := hbound0 (Or.inr (Or.inr rfl))
    have hns : n < ms.length := by omega
    have hcw : (ms.getD n default).isRd = false := (hwr0 rfl).1
    show Inv (if 255 < v then _ else _)
    split
    next => exact ⟨hdisp, fun hc => by simp [stepNum, M.fail] at hc⟩
    next =>
      show Inv (if (appendByte _ v).2 then _ else _)
      split
      next => exact ⟨hdisp, fun hc => by simp [stepNum, M.fail] at hc⟩
      next =>
        refine ⟨hdisp, fun _ => ⟨?_, hn, fun _ => hnm, ?_,
          fun _ => ⟨?_, ?_⟩, fun hc => by simp [stepNum, M.fail] at hc,
          fun hc => by simp [stepNum, M.fail] at hc⟩⟩
        · show (ms.set n _).length = MAXMSGS
          rw [List.length_set]
          exact hlen
        · intro i hi
          have hi2 : i < n := hi
          show WriteOk ((ms.set n _).getD i default)
          rw [getD_set_ne ms n i _ (by omega)]
          exact hcom i hi2
        · show ((ms.set n _).getD n default).isRd = false
          rw [getD_set_self ms n _ hns]
          exact hcw
        · show ((ms.set n _).getD n default).buf ≠ []
          rw [getD_set_self ms n _ hns]
          simp [appendByte]
  case INIT => exact ⟨hdisp, fun hc => by simp [stepNum, M.fail] at hc⟩
  case IDLE => exact ⟨hdisp, fun hc => by simp [stepNum, M.fail] at hc⟩

theorem inv_step (s : M) (t : Tok) (h : Inv s) : Inv (step s t) := by
  by_cases he : s.err.isSome = true
  · rw [step_frozen s t he]
    exact h
  · have he2 : s.err = none := by
      cases hc : s.err
      · rfl
      · rw [hc] at he
        exact absurd rfl he
    have hred : step s t =
        (match t with
         | .bad => s.fail .badTok
         | .cmdR => stepR s
         | .cmdW => stepW s
         | .cmdD => stepD s
         | .semi => stepSemi s
         | .numT v => stepNum s v) := by
      simp [step, he2]
    rw [hred]
    cases t with
    | bad => exact inv_fail s .badTok h
    | cmdR => exact inv_stepR s he2 h
    | cmdW => exact inv_stepW s he2 h
    | cmdD => exact inv_stepD s he2 h
    | semi => exact inv_stepSemi s he2 h
    | numT v => exact inv_stepNum s v he2 h

theorem inv_runToks (s : M) (ts : List Tok) (h : Inv s) :
    Inv (runToks s ts) := by
  induction ts generalizing s with
  | nil => exact h
  | cons t ts ih =>
    show Inv (runToks (step s t) ts)
    exact ih (step s t) (inv_step s t h)

theorem disp_finish (s : M) (h : Inv s) :
    ∀ b ∈ (finish s).dispatched, ∀ m ∈ b, WriteOk m := by
  obtain ⟨a, p, n, ms, d, e⟩ := s
  obtain ⟨hdisp0, hlive⟩ := h
  have hdisp : ∀ b ∈ d, ∀ m ∈ b, WriteOk m := hdisp0
  cases e
  case some err0 => exact hdisp
  case none =>
    obtain ⟨hlen0, hn0, hbound0, hcom0, hwr0, hrd0, hwrt0⟩ := hlive rfl
    have hcom : ∀ i, i < n → WriteOk (ms.getD i default) := hcom0
    cases p
    case WRITING =>
      have hcb : (ms.getD n default).buf ≠ [] := (hwr0 rfl).2
      have hsl : ∀ i, i < n + 1 → WriteOk (ms.getD i default) := by
        intro i hi
        rcases Nat.lt_or_ge i n with hlt | hge
        · exact hcom i hlt
        · have hieq : i = n := by omega
          subst hieq
          exact fun _ => hcb
      intro b hb
      have hb2 : b ∈ d ++ [ms.take (n + 1)] := hb
      rw [List.mem_append] at hb2
      rcases hb2 with hb2 | hb2
      · exact hdisp b hb2
      · rw [List.mem_singleton] at hb2
        subst hb2
        exact writeok_take ⟨a, .WRITING, n, ms, d, none⟩ (n + 1) hsl
    case IDLE =>
      show ∀ b ∈ (if n ≠ 0 then _ else _ : M).dispatched, ∀ m ∈ b, WriteOk m
      split
      next hnz =>
        intro b hb
        have hb2 : b ∈ d ++ [ms.take n] := hb
        rw [List.mem_append] at hb2
        rcases hb2 with hb2 | hb2
        · exact hdisp b hb2
        · rw [List.mem_singleton] at hb2
          subst hb2
          exact writeok_take ⟨a, .IDLE, n, ms, d, none⟩ n hcom
      next hnz => exact hdisp
    case INIT => exact hdisp
    case READ => exact hdisp
    case WRITE => exact hdisp
    case ADDR => exact hdisp
    case BUS => exact hdisp

theorem inv_start : Inv M.start := by
  refine ⟨fun b hb => by simp [M.start] at hb, fun _ => ⟨rfl, by decide, ?_, ?_,
    ?_, ?_, ?_⟩⟩
  · intro hc
    simp [M.start] at hc
  · intro i hi
    simp [M.start] at hi
  · intro hc
    simp [M.start] at hc
  · intro hc
    simp [M.start] at hc
  · intro hc
    simp [M.start] at hc

/-- C9: every write message of every batch ever passed to transact
carries at least one byte.  In WRITE state (right after a W, before any
byte) every command token is a SyntaxError and end of input is fatal, so
a write message is only ever committed from WRITING state, which requires
at least one appended byte - the proof runs this invariant through every
transition of the machine and the end-of-input handler. -/
theorem c9_no_empty_write (cs : List Char) :
    ∀ b ∈ (run cs).dispatched, ∀ m ∈ b, m.isRd = false → m.buf ≠ [] := by
  exact disp_finish _ (inv_runToks M.start (tokenize cs) inv_start)

/-- C9 witness: the dispatched batch of "D 0 0 W 7;" consists of the
one-byte write message, whose buffer is indeed non-empty. -/
theorem c9_witness :
    ({ addr := 0, isRd := false, len := 1, buf := [7] } : Msg).buf ≠ [] :=
  c9_no_empty_write (("D 0 0 W 7;").toList)
    [{ addr := 0, isRd := false, len := 1, buf := [7] }] (by decide)
    { addr := 0, isRd := false, len := 1, buf := [7] } (by decide) rfl

/-! ## C7 lemma chain -/

theorem eqvC_nat (c d : Char) (h : eqvC c d = true) :
    c.toNat = d.toNat ∨
    (c.toNat + 32 = d.toNat ∧ 65 ≤ c.toNat ∧ c.toNat ≤ 90) ∨
    (d.toNat + 32 = c.toNat ∧ 65 ≤ d.toNat ∧ d.toNat ≤ 90) := by
  simp [eqvC] at h
  rcases h with h | h | h
  · left
    rw [h]
  · right
    left
    exact h
  · right
    right
    exact h

theorem eqvC_space (c d : Char) (h : eqvC c d = true) :
    isSpaceC c = isSpaceC d := by
  have hm := eqvC_nat c d h
  simp only [isSpaceC]
  rw [decide_eq_decide]
  omega

theorem eqvC_digit (c d : Char) (h : eqvC c d = true) :
    isDigitC c = isDigitC d := by
  have hm := eqvC_nat c d h
  simp only [isDigitC]
  rw [decide_eq_decide]
  omega

theorem eqvC_hex (c d : Char) (h : eqvC c d = true) :
    isHexC c = isHexC d := by
  have hm := eqvC_nat c d h
  simp only [isHexC]
  rw [decide_eq_decide]
  omega

theorem eqvC_oct (c d : Char) (h : eqvC c d = true) :
    isOctC c = isOctC d := by
  have hm := eqvC_nat c d h
  simp only [isOctC]
  rw [decide_eq_decide]
  omega

theorem eqvC_classify (c d : Char) (h : eqvC c d = true) :
    classify c = classify d := by
  have hm := eqvC_nat c d h
  simp only [classify]
  split_ifs <;> first | rfl | (exfalso; omega)

theorem eqvC_hexVal (c d : Char) (h : eqvC c d = true)
    (hx : isHexC c = true) : hexVal c = hexVal d := by
  have hm := eqvC_nat c d h
  simp only [isHexC, decide_eq_true_eq] at hx
  simp only [hexVal]
  split_ifs <;> omega

theorem eqvC_digVal (c d : Char) (h : eqvC c d = true)
    (hx : isDigitC c = true) : digVal c = digVal d := by
  have hm := eqvC_nat c d h
  simp only [isDigitC, decide_eq_true_eq] at hx
  simp only [digVal]
  omega

theorem eqvL_cons (c d : Char) (cs ds : List Char) :
    eqvL (c :: cs) (d :: ds) = true ↔
    (eqvC c d = true ∧ eqvL cs ds = true) := by
  simp [eqvL, Bool.and_eq_true]

theorem eqvL_nil (ds : List Char) (h : eqvL [] ds = true) : ds = [] := by
  cases ds with
  | nil => rfl
  | cons d ds => simp [eqvL] at h

theorem eqvL_length (cs : List Char) : ∀ ds, eqvL cs ds = true →
    cs.length = ds.length := by
  induction cs with
  | nil =>
    intro ds h
    rw [eqvL_nil ds h]
  | cons c cs ih =>
    intro ds h
    cases ds with
    | nil => simp [eqvL] at h
    | cons d ds =>
      obtain ⟨h1, h2⟩ := (eqvL_cons c d cs ds).mp h
      simp [ih ds h2]

theorem takeWhile_eqv (p : Char → Bool)
    (hp : ∀ c d, eqvC c d = true → p c = p d) :
    ∀ cs ds, eqvL cs ds = true →
      eqvL (cs.takeWhile p) (ds.takeWhile p) = true ∧
      eqvL (cs.dropWhile p) (ds.dropWhile p) = true := by
  intro cs
  induction cs with
  | nil =>
    intro ds h
    rw [eqvL_nil ds h]
    exact ⟨rfl, rfl⟩
  | cons c cs ih =>
    intro ds h
    cases ds with
    | nil => simp [eqvL] at h
    | cons d ds =>
      obtain ⟨h1, h2⟩ := (eqvL_cons c d cs ds).mp h
      obtain ⟨iht, ihd⟩ := ih ds h2
      rw [List.takeWhile_cons, List.takeWhile_cons,
        List.dropWhile_cons, List.dropWhile_cons, ← hp c d h1]
      by_cases hpc : p c = true
      · rw [if_pos hpc, if_pos hpc, if_pos hpc, if_pos hpc]
        exact ⟨(eqvL_cons c d _ _).mpr ⟨h1, iht⟩, ihd⟩
      · rw [if_neg hpc, if_neg hpc, if_neg hpc, if_neg hpc]
        exact ⟨rfl, h⟩

theorem mem_takeWhile (p : Char → Bool) :
    ∀ (l : List Char) (c : Char), c ∈ l.takeWhile p → p c = true := by
  intro l
  induction l with
  | nil =>
    intro c hc
    simp [List.takeWhile] at hc
  | cons a l ih =>
    intro c hc
    rw [List.takeWhile_cons] at hc
    by_cases hpa : p a = true
    · rw [if_pos hpa] at hc
      rcases List.mem_cons.mp hc with hc | hc
      · rw [hc]
        exact hpa
      · exact ih c hc
    · rw [if_neg hpa] at hc
      simp at hc

theorem foldl_eqv (b : Nat) (v : Char → Nat) (p : Char → Bool)
    (hv : ∀ c d, eqvC c d = true → p c = true → v c = v d) :
    ∀ cs ds (acc : Nat), eqvL cs ds = true → (∀ c ∈ cs, p c = true) →
      cs.foldl (fun a c => b * a + v c) acc =
        ds.foldl (fun a c => b * a + v c) acc := by
  intro cs
  induction cs with
  | nil =>
    intro ds acc h hall
    rw [eqvL_nil ds h]
  | cons c cs ih =>
    intro ds acc h hall
    cases ds with
    | nil => simp [eqvL] at h
    | cons d ds =>
      obtain ⟨h1, h2⟩ := (eqvL_cons c d cs ds).mp h
      rw [List.foldl_cons, List.foldl_cons,
        hv c d h1 (hall c (List.mem_cons_self c cs))]
      exact ih ds _ h2 (fun x hx => hall x (List.mem_cons_of_mem c hx))

theorem head_any_hex_eqv (cs ds : List Char) (h : eqvL cs ds = true) :
    cs.head?.any isHexC = ds.head?.any isHexC := by
  cases cs with
  | nil =>
    rw [eqvL_nil ds h]
  | cons c cs =>
    cases ds with
    | nil => simp [eqvL] at h
    | cons d ds =>
      obtain ⟨h1, _⟩ := (eqvL_cons c d cs ds).mp h
      simp [eqvC_hex c d h1]

theorem spanVal_hex_eqv (cs ds : List Char) (h : eqvL cs ds = true) :
    spanVal 16 hexVal (cs.takeWhile isHexC) =
      spanVal 16 hexVal (ds.takeWhile isHexC) := by
  exact foldl_eqv 16 hexVal isHexC eqvC_hexVal _ _ 0
    ((takeWhile_eqv isHexC eqvC_hex cs ds h).1)
    (mem_takeWhile isHexC cs)

theorem spanVal_oct_eqv (cs ds : List Char) (h : eqvL cs ds = true) :
    spanVal 8 digVal (cs.takeWhile isOctC) =
      spanVal 8 digVal (ds.takeWhile isOctC) := by
  refine foldl_eqv 8 digVal isOctC ?_ _ _ 0
    ((takeWhile_eqv isOctC eqvC_oct cs ds h).1)
    (mem_takeWhile isOctC cs)
  intro c d hcd hoct
  refine eqvC_digVal c d hcd ?_
  simp only [isOctC, decide_eq_true_eq] at hoct
  simp only [isDigitC, decide_eq_true_eq]
  omega

theorem spanVal_dec_eqv (cs ds : List Char) (h : eqvL cs ds = true) :
    spanVal 10 digVal (cs.takeWhile isDigitC) =
      spanVal 10 digVal (ds.takeWhile isDigitC) := by
  exact foldl_eqv 10 digVal isDigitC eqvC_digVal _ _ 0
    ((takeWhile_eqv isDigitC eqvC_digit cs ds h).1)
    (mem_takeWhile isDigitC cs)

theorem parseNum_eqv (cs ds : List Char) (h : eqvL cs ds = true) :
    (parseNum cs).1 = (parseNum ds).1 ∧
    eqvL (parseNum cs).2 (parseNum ds).2 = true := by
  cases cs with
  | nil =>
    rw [eqvL_nil ds h]
    exact ⟨rfl, rfl⟩
  | cons c0 cs1 =>
    cases ds with
    | nil => simp [eqvL] at h
    | cons d0 ds1 =>
      obtain ⟨h0, h1⟩ := (eqvL_cons c0 d0 cs1 ds1).mp h
      have hm0 := eqvC_nat c0 d0 h0
      cases cs1 with
      | nil =>
        have hds : ds1 = [] := eqvL_nil ds1 h1
        subst hds
        show (parseNum [c0]).1 = (parseNum [d0]).1 ∧
          eqvL (parseNum [c0]).2 (parseNum [d0]).2 = true
        simp only [parseNum]
        by_cases h48 : c0.toNat = 48
        · have h48d : d0.toNat = 48 := by omega
          have hq : ([c0].head?.any (fun c => c.toNat = 48)) = true := by
            simp [h48]
          have hqd : ([d0].head?.any (fun c => c.toNat = 48)) = true := by
            simp [h48d]
          rw [if_pos hq, if_pos hqd]
          exact ⟨spanVal_oct_eqv [c0] [d0] h,
            (takeWhile_eqv isOctC eqvC_oct [c0] [d0] h).2⟩
        · have h48d : ¬ d0.toNat = 48 := by omega
          have hq : ¬ ([c0].head?.any (fun c => c.toNat = 48)) = true := by
            simp [h48]
          have hqd : ¬ ([d0].head?.any (fun c => c.toNat = 48)) = true := by
            simp [h48d]
          rw [if_neg hq, if_neg hqd]
          exact ⟨spanVal_dec_eqv [c0] [d0] h,
            (takeWhile_eqv isDigitC eqvC_digit [c0] [d0] h).2⟩
      | cons c1 cs2 =>
        cases ds1 with
        | nil => simp [eqvL] at h1
        | cons d1 ds2 =>
          obtain ⟨h0b, h1b⟩ := (eqvL_cons c1 d1 cs2 ds2).mp h1
          have hm1 := eqvC_nat c1 d1 h0b
          show (parseNum (c0 :: c1 :: cs2)).1 =
              (parseNum (d0 :: d1 :: ds2)).1 ∧
            eqvL (parseNum (c0 :: c1 :: cs2)).2
              (parseNum (d0 :: d1 :: ds2)).2 = true
          simp only [parseNum]
          by_cases hhex : c0.toNat = 48 ∧ (c1.toNat = 120 ∨ c1.toNat = 88) ∧
              cs2.head?.any isHexC = true
          · have hhexd : d0.toNat = 48 ∧
                (d1.toNat = 120 ∨ d1.toNat = 88) ∧
                ds2.head?.any isHexC = true := by
              obtain ⟨ha, hb, hc⟩ := hhex
              refine ⟨by omega, by omega, ?_⟩
              rw [← head_any_hex_eqv cs2 ds2 h1b]
              exact hc
            rw [if_pos hhex, if_pos hhexd]
            exact ⟨spanVal_hex_eqv cs2 ds2 h1b,
              (takeWhile_eqv isHexC eqvC_hex cs2 ds2 h1b).2⟩
          · have hhexd : ¬ (d0.toNat = 48 ∧
                (d1.toNat = 120 ∨ d1.toNat = 88) ∧
                ds2.head?.any isHexC = true) := by
              intro hcon
              obtain ⟨ha, hb, hc⟩ := hcon
              refine hhex ⟨by omega, by omega, ?_⟩
              rw [head_any_hex_eqv cs2 ds2 h1b]
              exact hc
            rw [if_neg hhex, if_neg hhexd]
            by_cases h48 : c0.toNat = 48
            · have h48d : d0.toNat = 48 := by omega
              rw [if_pos h48, if_pos h48d]
              exact ⟨spanVal_oct_eqv _ _ h,
                (takeWhile_eqv isOctC eqvC_oct _ _ h).2⟩
            · have h48d : ¬ d0.toNat = 48 := by omega
              rw [if_neg h48, if_neg h48d]
              exact ⟨spanVal_dec_eqv _ _ h,
                (takeWhile_eqv isDigitC eqvC_digit _ _ h).2⟩

theorem tokAux_eqv (f : Nat) : ∀ cs ds, eqvL cs ds = true →
    tokAux f cs = tokAux f ds := by
  induction f with
  | zero =>
    intro cs ds h
    cases cs <;> cases ds <;> rfl
  | succ f ih =>
    intro cs ds h
    cases cs with
    | nil =>
      rw [eqvL_nil ds h]
    | cons c cs =>
      cases ds with
      | nil => simp [eqvL] at h
      | cons d ds =>
        obtain ⟨hc, ht⟩ := (eqvL_cons c d cs ds).mp h
        have hm := eqvC_nat c d hc
        show tokAux (f + 1) (c :: cs) = tokAux (f + 1) (d :: ds)
        simp only [tokAux]
        have hsp2 : isSpaceC d = isSpaceC c := (eqvC_space c d hc).symm
        by_cases hsp : isSpaceC c = true
        · rw [if_pos hsp, if_pos (hsp2.trans hsp)]
          exact ih cs ds ht
        · rw [if_neg hsp, if_neg (fun hx => hsp (hsp2.symm.trans hx))]
          by_cases hh : c.toNat = 35
          · have hh2 : d.toNat = 35 := by omega
            rw [if_pos hh, if_pos hh2]
            refine ih _ _ ?_
            exact (takeWhile_eqv (fun x => ¬ x.toNat = 10)
              (fun c' d' hcd => by
                have hm2 := eqvC_nat c' d' hcd
                rw [decide_eq_decide]
                omega) cs ds ht).2
          · have hh2 : ¬ d.toNat = 35 := by omega
            rw [if_neg hh, if_neg hh2]
            by_cases hdg : isDigitC c = true
            · have hdg2 : isDigitC d = true := by
                rw [← eqvC_digit c d hc]
                exact hdg
              rw [if_pos hdg, if_pos hdg2]
              obtain ⟨hv, hr⟩ := parseNum_eqv (c :: cs) (d :: ds) h
              rw [hv, ih _ _ hr]
            · have hdg2 : ¬ isDigitC d = true := by
                rw [← eqvC_digit c d hc]
                exact hdg
              rw [if_neg hdg, if_neg hdg2]
              rw [eqvC_classify c d hc]
              cases hcl : classify d with
              | some t => rw [ih cs ds ht]
              | none => rfl

theorem tokenize_eqv (cs ds : List Char) (h : eqvL cs ds = true) :
    tokenize cs = tokenize ds := by
  rw [tokenize, tokenize, eqvL_length cs ds h]
  exact tokAux_eqv ds.length cs ds h

theorem run_eqv (cs ds : List Char) (h : eqvL cs ds = true) :
    run cs = run ds := by
  rw [run, run, tokenize_eqv cs ds h]

/-! ## C7 -/

/-- C7: command letters are case-insensitive.  The general statement: any
two inputs that agree position by position up to ASCII letter case run to
identical machine states - so replacing any command letter (indeed any
letter) by its other case leaves the parsed result unchanged.  In
particular "d 24 1 w 6 r 2" and "D 24 1 W 6 R 2" run to the same state,
dispatching the identical two-message transaction. -/
theorem c7_case_insensitive :
    run (("d 24 1 w 6 r 2").toList) = run (("D 24 1 W 6 R 2").toList) ∧
    (run (("D 24 1 W 6 R 2").toList)).dispatched =
      [[{ addr := 24, isRd := false, len := 1, buf := [6] },
        { addr := 24, isRd := true, len := 2, buf := [] }]] ∧
    (∀ cs ds : List Char, eqvL cs ds = true → run cs = run ds) :=
  ⟨by decide, by decide, run_eqv⟩

/-- C7 witness: the general case-insensitivity fact applied to the
concrete pair "d 1 0 r 1" and "D 1 0 R 1". -/
theorem c7_witness :
    run (("d 1 0 r 1").toList) = run (("D 1 0 R 1").toList) :=
  c7_case_insensitive.2.2 (("d 1 0 r 1").toList) (("D 1 0 R 1").toList)
    (by decide)

end I2cio
